import Mathlib

/-!
Verification of the tokenization / chunking subsystem and the ingestion
pipeline of the Sales-Education-Agent back end.

The model is a shallow embedding of `src/services/tokenizer.ts` and
`src/services/ragBuilder.ts`.  JavaScript strings are modelled as
`List Char` (a string is its sequence of code units; all inputs used in
concrete computations are ASCII, where code units and characters agree),
and `string.length` as `List.length`.  External collaborators (the
embedding service, the document store, the file system and the ambient
clock / UUID source) are modelled as explicit function parameters.
-/

/-- Character class of the JavaScript regular-expression `\s`
(whitespace), as used by `split(/(\s+)/)`, `split(/(?<=[.!?])\s+/)`,
`split(/\n\s*\n/)` and `String.prototype.trim` in `tokenizer.ts` and
`ragBuilder.ts`. -/
def isWs (c : Char) : Bool :=
  c == ' ' || c == '\t' || c == '\n' || c == '\r' || c == '\x0b' || c == '\x0c' ||
  c == '\u00A0' || c == '\u1680' || ('\u2000' ≤ c && c ≤ '\u200A') || c == '\u2028' ||
  c == '\u2029' || c == '\u202F' || c == '\u205F' || c == '\u3000' || c == '\uFEFF'

/-- Terminal sentence punctuation, the class `[.!?]` of
`BasicSentenceTokenizer.tokenize`. -/
def isTerm (c : Char) : Bool :=
  c == '.' || c == '!' || c == '?'

/-- Splitting a character list into maximal runs of whitespace /
non-whitespace characters.  This is the result of the JavaScript
`text.split(/(\s+)/)` (split on whitespace runs, keeping the captured
separators) after the `filter((word) => word.length > 0)` of
`BasicWordTokenizer.tokenize`: the empty fragments the capture-group
split produces at the boundaries are exactly the ones removed by that
filter, so what remains is the list of maximal homogeneous runs. -/
def splitRuns : List Char → List (List Char)
  | [] => []
  | c :: cs =>
    match splitRuns cs with
    | [] => [[c]]
    | [] :: rs => [c] :: [] :: rs
    | (d :: ds) :: rs =>
      if isWs c == isWs d then (c :: d :: ds) :: rs else [c] :: (d :: ds) :: rs

/-- Model of `BasicWordTokenizer.tokenize` with `ignorePunctuation =
false` (the default used by `SentenceChunker`): split on whitespace while
preserving the whitespace runs as tokens, dropping empty fragments. -/
def wordTokenize (s : List Char) : List (List Char) :=
  (splitRuns s).filter (fun w => w.length != 0)

/-- Model of `BasicWordTokenizer.formatWords`: `words.join('')`. -/
def formatWords (ws : List (List Char)) : List Char :=
  ws.flatten

theorem splitRuns_ne_nil : ∀ (s : List Char), ∀ r ∈ splitRuns s, r ≠ [] := by
  intro s
  induction s with
  | nil => intro r hr; cases hr
  | cons c cs ih =>
    intro r hr
    simp only [splitRuns] at hr
    cases h : splitRuns cs with
    | nil => rw [h] at hr; simp at hr; simp [hr]
    | cons t ts =>
      rw [h] at hr
      cases t with
      | nil => exact absurd rfl (ih [] (h ▸ List.mem_cons_self _ _))
      | cons d ds =>
        by_cases hcd : isWs c == isWs d
        · simp [hcd] at hr
          rcases hr with hr | hr
          · simp [hr]
          · exact ih r (h ▸ List.mem_cons_of_mem _ hr)
        · simp [hcd] at hr
          rcases hr with hr | hr | hr
          · simp [hr]
          · simp [hr]
          · exact ih r (h ▸ List.mem_cons_of_mem _ hr)

theorem join_splitRuns : ∀ (s : List Char), (splitRuns s).flatten = s := by
  intro s
  induction s with
  | nil => rfl
  | cons c cs ih =>
    simp only [splitRuns]
    cases h : splitRuns cs with
    | nil =>
      have : cs = [] := by rw [h] at ih; simpa using ih.symm
      simp [this]
    | cons t ts =>
      rw [h] at ih
      cases t with
      | nil => simp at ih ⊢; simpa using ih
      | cons d ds =>
        by_cases hcd : isWs c == isWs d
        · simp [hcd] at ih ⊢; simpa using ih
        · simp [hcd] at ih ⊢; simpa using ih

/-- C3: for the whitespace-preserving word tokenizer
(`BasicWordTokenizer` with `ignorePunctuation = false`), the round trip
`formatWords(tokenize(s)) == s` holds for every string `s`. -/
theorem formatWords_wordTokenize (s : List Char) :
    formatWords (wordTokenize s) = s := by
  have hfilter : (splitRuns s).filter (fun w => w.length != 0) = splitRuns s := by
    apply List.filter_eq_self.mpr
    intro r hr
    have := splitRuns_ne_nil s r hr
    simp [List.length_eq_zero]
    exact this
  rw [wordTokenize, formatWords, hfilter, join_splitRuns]

/-- State machine implementing the JavaScript split
`text.split(/(?<=[.!?])\s+/)` of `BasicSentenceTokenizer.tokenize`.
`inDelim` records whether the scan is inside a whitespace run that was
matched as a delimiter (a run whose first character is preceded by one of
`.`, `!`, `?`); such characters are consumed and dropped.  `prev` is the
previously scanned character (the lookbehind), `acc` the current
fragment in reverse order. -/
def sentsAux : Bool → Option Char → List Char → List Char → List (List Char)
  | _, _, acc, [] => [acc.reverse]
  | true, _, acc, c :: cs =>
    if isWs c then sentsAux true (some c) acc cs
    else sentsAux false (some c) [c] cs
  | false, prev, acc, c :: cs =>
    if (match prev with | some p => isTerm p | none => false) && isWs c then
      acc.reverse :: sentsAux true (some c) [] cs
    else sentsAux false (some c) (c :: acc) cs

/-- Model of `BasicSentenceTokenizer.tokenize`: split on terminal
punctuation followed by whitespace, then keep only fragments whose
`trim()` is non-empty, i.e. fragments containing a non-whitespace
character. -/
def sentTokenize (s : List Char) : List (List Char) :=
  (sentsAux false none [] s).filter (fun t => t.any (fun c => !(isWs c)))

/-- Scanner state for the paragraph split `text.split(/\n\s*\n/)`.
`norm` is ordinary scanning; `delim pend post twoNl` means the scan is
inside a whitespace run that started with a newline: `pend` holds all
characters of the run consumed so far (reversed, for rollback when the
run contains no second newline), `post` the characters after the last
newline seen (reversed), and `twoNl` whether a second newline has been
seen, i.e. whether the greedy `\n\s*\n` match succeeds. -/
inductive PMode where
  | norm : PMode
  | delim : List Char → List Char → Bool → PMode

/-- State machine implementing `text.split(/\n\s*\n/)`: the delimiter is
the segment of a whitespace run from its first newline to its last
newline, provided the run contains at least two newlines (the greedy
`\s*` with backtracking).  `acc` is the current piece in reverse order. -/
def parasAux : PMode → List Char → List Char → List (List Char)
  | PMode.norm, acc, [] => [acc.reverse]
  | PMode.delim pend post twoNl, acc, [] =>
    if twoNl then [acc.reverse, post.reverse] else [(pend ++ acc).reverse]
  | PMode.norm, acc, c :: cs =>
    if c == '\n' then parasAux (PMode.delim [c] [] false) acc cs
    else parasAux PMode.norm (c :: acc) cs
  | PMode.delim pend post twoNl, acc, c :: cs =>
    if c == '\n' then parasAux (PMode.delim (c :: pend) [] true) acc cs
    else if isWs c then parasAux (PMode.delim (c :: pend) (c :: post) twoNl) acc cs
    else if twoNl then acc.reverse :: parasAux PMode.norm (c :: post) cs
    else parasAux PMode.norm (c :: (pend ++ acc)) cs

/-- Model of `String.prototype.trim`: drop whitespace from both ends. -/
def trimChars (s : List Char) : List Char :=
  ((s.dropWhile isWs).reverse.dropWhile isWs).reverse

/-- Model of `tokenizeParagraphs` in `tokenizer.ts`: split on
`/\n\s*\n/`, trim each piece, drop empty pieces. -/
def tokenizeParagraphs (text : List Char) : List (List Char) :=
  ((parasAux PMode.norm [] text).map trimChars).filter (fun p => p.length != 0)

/-- Word tokens of one paragraph, in processing order: the two nested
loops of `SentenceChunker.chunk` (`for sentence ... for word ...`) touch
no per-sentence state, so they traverse exactly this flattened list. -/
def wordsOfParagraph (p : List Char) : List (List Char) :=
  (sentTokenize p).flatMap wordTokenize

/-- Model of the carry-trim loop of `SentenceChunker.chunk`:
`while (formatWords(lastBufWords).length > chunkOverlap) lastBufWords =
lastBufWords.slice(1)`.  `none` models non-termination: once the buffer
is empty, `slice(1)` leaves it empty, so if the empty buffer still fails
the bound (`0 > chunkOverlap`, i.e. a negative overlap) the loop never
exits. -/
def trimCarry (ov : Int) : List (List Char) → Option (List (List Char))
  | [] => if 0 ≤ ov then some [] else none
  | w :: ws =>
    if ((formatWords (w :: ws)).length : Int) ≤ ov then some (w :: ws)
    else trimCarry ov ws

/-- One iteration of the word loop of `SentenceChunker.chunk`, acting on
the state `(chunks, lastBufWords, bufWords)`.  If appending the word
would push the reconstructed length over `maxChunkSize`, the carry is
trimmed, a chunk `formatWords(lastBufWords ++ bufWords)` is emitted,
`lastBufWords` becomes the old buffer and the buffer restarts; the word
is then appended in either case. -/
def stepWord (M ov : Int) (st : List (List Char) × List (List Char) × List (List Char))
    (w : List Char) : Option (List (List Char) × List (List Char) × List (List Char)) :=
  let (chunks, lastBuf, buf) := st
  if ((formatWords (buf ++ [w])).length : Int) > M then
    match trimCarry ov lastBuf with
    | none => none
    | some lb => some (chunks ++ [formatWords (lb ++ buf)], buf, [w])
  else
    some (chunks, lastBuf, buf ++ [w])

/-- The word loop of `SentenceChunker.chunk` over a list of word tokens. -/
def runWords (M ov : Int) : List (List Char) →
    List (List Char) × List (List Char) × List (List Char) →
    Option (List (List Char) × List (List Char) × List (List Char))
  | [], st => some st
  | w :: ws, st =>
    match stepWord M ov st w with
    | none => none
    | some st' => runWords M ov ws st'

/-- The end-of-paragraph flush of `SentenceChunker.chunk`: if `bufWords`
is non-empty, trim the carry, emit `formatWords(lastBufWords ++
bufWords)` and reset `bufWords` to empty. -/
def endParagraph (ov : Int) (st : List (List Char) × List (List Char) × List (List Char)) :
    Option (List (List Char) × List (List Char)) :=
  let (chunks, lastBuf, buf) := st
  if buf.isEmpty then some (chunks, buf)
  else
    match trimCarry ov lastBuf with
    | none => none
    | some lb => some (chunks ++ [formatWords (lb ++ buf)], [])

/-- Processing of one paragraph by `SentenceChunker.chunk`:
`lastBufWords` starts empty for every paragraph, `bufWords` is carried in
from the previous paragraph (it is always empty there, because every
paragraph ends with a flush), and the paragraph ends with the
end-of-paragraph flush. -/
def processParagraph (M ov : Int) (chunks : List (List Char)) (buf : List (List Char))
    (p : List Char) : Option (List (List Char) × List (List Char)) :=
  match runWords M ov (wordsOfParagraph p) (chunks, [], buf) with
  | none => none
  | some st => endParagraph ov st

/-- The paragraph loop of `SentenceChunker.chunk`; the function returns
the accumulated chunk list. -/
def runParas (M ov : Int) : List (List Char) → List (List Char) → List (List Char) →
    Option (List (List Char))
  | [], chunks, _ => some chunks
  | p :: ps, chunks, buf =>
    match processParagraph M ov chunks buf p with
    | none => none
    | some (chunks', buf') => runParas M ov ps chunks' buf'

/-- Model of `SentenceChunker.chunk` with the default tokenizers
(`tokenizeParagraphs`, `BasicSentenceTokenizer`,
`BasicWordTokenizer(false)`) and configured `maxChunkSize` and
`chunkOverlap`.  `none` models non-termination of the carry-trim loop. -/
def chunkModel (M ov : Int) (text : List Char) : Option (List (List Char)) :=
  runParas M ov (tokenizeParagraphs text) [] []

/-- Metadata of a persisted document, the `metadata` field assembled in
`RAGBuilder.buildFromTexts`. -/
structure DocMetadata where
  index : Nat
  embedding_model : List Char
  embedding_dimension : Nat
deriving DecidableEq

/-- A persisted `RAGDocument` of `ragBuilder.ts`.  The embedding payload
type is a parameter `E` (the code stores `number[]`; no claim depends on
float arithmetic).  `uuid` and `created_at` are opaque values drawn from
the modelled UUID source and clock. -/
structure RagDoc (E : Type) where
  uuid : Nat
  uid : Option (List Char)
  content : List Char
  embedding : E
  created_at : Nat
  metadata : DocMetadata
deriving DecidableEq

/-- Environment of a `RAGBuilder` call: its configuration together with
its external collaborators.  `embed idx text` models the call to
`createEmbeddings` for the unit at position `idx` of the filtered list
(`Except.error` models a thrown collaborator error); `uuidGen` models
`randomUUID` and `time` models `new Date()`, one fresh value per
processed unit. -/
structure BuildEnv (E : Type) where
  embed : Nat → List Char → Except Unit E
  uuidGen : Nat → Nat
  time : Nat → Nat
  uid : Option (List Char)
  embeddingsModel : List Char
  embeddingsDimension : Nat

/-- Document record constructed for unit `idx` with content `t` and
embedding `e`, following the object literal in `buildFromTexts`.  The
spread `...(this.uid && \x7b uid: this.uid \x7d)` omits the `uid` field
when `this.uid` is `undefined` or the (falsy) empty string. -/
def mkRagDoc {E : Type} (env : BuildEnv E) (idx : Nat) (t : List Char) (e : E) : RagDoc E :=
  { uuid := env.uuidGen idx
    uid := match env.uid with
      | some u => if u.isEmpty then none else some u
      | none => none
    content := t
    embedding := e
    created_at := env.time idx
    metadata :=
      { index := idx
        embedding_model := env.embeddingsModel
        embedding_dimension := env.embeddingsDimension } }

/-- The validity filter of `buildFromTexts`:
`texts.filter((text) => text.trim().length > 0)`. -/
def isValidText (t : List Char) : Bool :=
  (trimChars t).length != 0

/-- The per-unit loop of `buildFromTexts` over the filtered unit list.
`idx` is the loop index, `buf` the in-memory `documents` buffer, `ins`
the sequence of `insertMany` calls issued so far (each entry one batch,
in call order).  An `Except.error` of the embedding collaborator is the
caught-and-logged branch: the unit is skipped and the loop continues.
When the buffer reaches 100 records it is flushed as one bulk insert;
after the loop a final flush happens if the buffer is non-empty. -/
def buildLoop {E : Type} (env : BuildEnv E) :
    Nat → List (List Char) → List (RagDoc E) → List (List (RagDoc E)) →
    List (List (RagDoc E))
  | _, [], buf, ins => if buf.isEmpty then ins else ins ++ [buf]
  | idx, t :: ts, buf, ins =>
    match env.embed idx t with
    | Except.error _ => buildLoop env (idx + 1) ts buf ins
    | Except.ok e =>
      let buf' := buf ++ [mkRagDoc env idx t e]
      if 100 ≤ buf'.length then buildLoop env (idx + 1) ts [] (ins ++ [buf'])
      else buildLoop env (idx + 1) ts buf' ins

/-- Model of `RAGBuilder.buildFromTexts`: filter the units to those with
non-empty trimmed content, then run the per-unit loop.  The result is
the ordered list of `insertMany` batches handed to the store. -/
def buildFromTexts {E : Type} (env : BuildEnv E) (texts : List (List Char)) :
    List (List (RagDoc E)) :=
  buildLoop env 0 (texts.filter isValidText) [] []

/-- Model of `RAGBuilder.buildFromFile`: the file system is a partial
map from paths to contents (`fs.access` failing on absent paths).  A
missing path raises the input error before any store interaction; an
existing file is read fully, split by `tokenizeParagraphs`, and handed
to `buildFromTexts` as is. -/
def buildFromFile {E : Type} (env : BuildEnv E) (fileSys : List Char → Option (List Char))
    (path : List Char) : Except Unit (List (List (RagDoc E))) :=
  match fileSys path with
  | none => Except.error ()
  | some raw => Except.ok (buildFromTexts env (tokenizeParagraphs raw))

/-- Filter predicate of `collection.deleteMany(\x7b uid \x7d)`: a stored
document matches when its `uid` field is present and equal; documents
without the field do not match. -/
def matchesUid {E : Type} (u : List Char) (d : RagDoc E) : Bool :=
  d.uid == some u

/-- Model of `RAGBuilder.cleanupByUid`: the store is the ordered list of
persisted documents; `deleteMany` removes every matching document and
reports the count removed.  Returns the remaining store and
`result.deletedCount`. -/
def cleanupByUid {E : Type} (u : List Char) (store : List (RagDoc E)) :
    List (RagDoc E) × Nat :=
  (store.filter (fun d => !(matchesUid u d)), (store.filter (matchesUid u)).length)

/-- Expected batch sizes of the insert calls: `flushSizes b n` is the
list of `insertMany` batch sizes produced by processing `n` further
always-successful units starting from a buffer of `b` records. -/
def flushSizes : Nat → Nat → List Nat
  | b, 0 => if b = 0 then [] else [b]
  | b, n + 1 => if 100 ≤ b + 1 then 100 :: flushSizes 0 n else flushSizes (b + 1) n

theorem formatWords_append (a b : List (List Char)) :
    formatWords (a ++ b) = formatWords a ++ formatWords b := by
  simp [formatWords]

theorem trimCarry_isSome {ov : Int} (hov : 0 ≤ ov) :
    ∀ xs : List (List Char), (trimCarry ov xs).isSome = true := by
  intro xs
  induction xs with
  | nil => simp [trimCarry, hov]
  | cons w ws ih =>
    by_cases h : ((formatWords (w :: ws)).length : Int) ≤ ov
    · simp [trimCarry, h]
    · simp [trimCarry, h, ih]

theorem trimCarry_eq_none {ov : Int} (hov : ov < 0) :
    ∀ xs : List (List Char), trimCarry ov xs = none := by
  intro xs
  induction xs with
  | nil =>
    have h : ¬ (0 : Int) ≤ ov := by omega
    simp [trimCarry, h]
  | cons w ws ih =>
    have h : ¬ ((formatWords (w :: ws)).length : Int) ≤ ov := by
      have h0 : (0 : Int) ≤ ((formatWords (w :: ws)).length : Int) := Int.ofNat_nonneg _
      omega
    simp [trimCarry, h, ih]

theorem trimCarry_bound {ov : Int} :
    ∀ {xs r : List (List Char)}, trimCarry ov xs = some r →
      ((formatWords r).length : Int) ≤ ov := by
  intro xs
  induction xs with
  | nil =>
    intro r h
    by_cases h0 : (0 : Int) ≤ ov
    · simp [trimCarry, h0] at h
      subst h
      simpa [formatWords] using h0
    · simp [trimCarry, h0] at h
  | cons w ws ih =>
    intro r h
    by_cases hc : ((formatWords (w :: ws)).length : Int) ≤ ov
    · simp [trimCarry, hc] at h
      subst h
      exact hc
    · simp [trimCarry, hc] at h
      exact ih h

theorem stepWord_isSome {M ov : Int} (hov : 0 ≤ ov)
    (st : List (List Char) × List (List Char) × List (List Char)) (w : List Char) :
    (stepWord M ov st w).isSome = true := by
  obtain ⟨chunks, lastBuf, buf⟩ := st
  by_cases h : ((formatWords (buf ++ [w])).length : Int) > M
  · have hs := trimCarry_isSome hov lastBuf
    cases ht : trimCarry ov lastBuf with
    | none => rw [ht] at hs; simp at hs
    | some lb => simp [stepWord, h, ht]
  · simp [stepWord, h]

theorem runWords_isSome {M ov : Int} (hov : 0 ≤ ov) :
    ∀ (ws : List (List Char)) (st : List (List Char) × List (List Char) × List (List Char)),
      (runWords M ov ws st).isSome = true := by
  intro ws
  induction ws with
  | nil => intro st; simp [runWords]
  | cons w ws ih =>
    intro st
    have hs := stepWord_isSome (M := M) hov st w
    cases h : stepWord M ov st w with
    | none => rw [h] at hs; simp at hs
    | some st' => simp [runWords, h, ih]

theorem endParagraph_isSome {ov : Int} (hov : 0 ≤ ov)
    (st : List (List Char) × List (List Char) × List (List Char)) :
    (endParagraph ov st).isSome = true := by
  obtain ⟨chunks, lastBuf, buf⟩ := st
  by_cases hb : buf.isEmpty
  · simp [endParagraph, hb]
  · have hs := trimCarry_isSome hov lastBuf
    cases ht : trimCarry ov lastBuf with
    | none => rw [ht] at hs; simp at hs
    | some lb => simp [endParagraph, hb, ht]

theorem processParagraph_isSome {M ov : Int} (hov : 0 ≤ ov)
    (chunks buf : List (List Char)) (p : List Char) :
    (processParagraph M ov chunks buf p).isSome = true := by
  have hr := runWords_isSome (M := M) hov (wordsOfParagraph p) (chunks, [], buf)
  cases h : runWords M ov (wordsOfParagraph p) (chunks, [], buf) with
  | none => rw [h] at hr; simp at hr
  | some st => simpa [processParagraph, h] using endParagraph_isSome hov st

theorem runParas_isSome {M ov : Int} (hov : 0 ≤ ov) :
    ∀ (ps chunks buf : List (List Char)), (runParas M ov ps chunks buf).isSome = true := by
  intro ps
  induction ps with
  | nil => intro chunks buf; simp [runParas]
  | cons p ps ih =>
    intro chunks buf
    have hp := processParagraph_isSome (M := M) hov chunks buf p
    cases h : processParagraph M ov chunks buf p with
    | none => rw [h] at hp; simp at hp
    | some st => obtain ⟨chunks', buf'⟩ := st; simp [runParas, h, ih]

/-- C10: under the precondition `chunkOverlap ≥ 0`, `SentenceChunker.chunk`
terminates on every input text (the model returns `some`); and whenever
`chunkOverlap < 0`, the carry-trim loop can never exit (the model of the
loop returns `none` on every buffer), so the first flush diverges. -/
theorem chunk_terminates (M ov : Int) (text : List Char) :
    (0 ≤ ov → (chunkModel M ov text).isSome = true) ∧
    (ov < 0 → ∀ carry : List (List Char), trimCarry ov carry = none) := by
  constructor
  · intro hov
    exact runParas_isSome hov (tokenizeParagraphs text) [] []
  · intro hov carry
    exact trimCarry_eq_none hov carry

/-- Witness for C10 at concrete inputs: the default configuration
terminates on a two-sentence text, and the trim loop diverges on a
sample carry buffer for overlap `-1`. -/
theorem chunk_terminates_witness :
    (chunkModel 120 30 ("One two. Three four.".toList)).isSome = true ∧
    trimCarry (-1) [['a'], ['b']] = none :=
  ⟨(chunk_terminates 120 30 ("One two. Three four.".toList)).1 (by decide),
   (chunk_terminates 120 (-1) []).2 (by decide) [['a'], ['b']]⟩

/-- All word tokens of an input text, across paragraphs, in processing
order. -/
def allWordTokens (text : List Char) : List (List Char) :=
  (tokenizeParagraphs text).flatMap wordsOfParagraph

/-- Length of the longest word token of the input (0 when there are
none). -/
def maxTokenLen (text : List Char) : Nat :=
  ((allWordTokens text).map List.length).foldr max 0

theorem le_foldr_max {l : List Nat} {x : Nat} (h : x ∈ l) : x ≤ l.foldr max 0 := by
  induction l with
  | nil => cases h
  | cons a l ih =>
    rcases List.mem_cons.mp h with rfl | h'
    · exact le_max_left _ _
    · exact le_trans (ih h') (le_max_right _ _)

theorem tokenLen_le_maxTokenLen {text p w : List Char}
    (hp : p ∈ tokenizeParagraphs text) (hw : w ∈ wordsOfParagraph p) :
    w.length ≤ maxTokenLen text := by
  apply le_foldr_max
  exact List.mem_map_of_mem _ (List.mem_flatMap.mpr ⟨p, hp, hw⟩)

theorem runWords_bound {M ov : Int} {W : Nat} :
    ∀ (ws chunks lastBuf buf chunks' lastBuf' buf' : List (List Char)),
      runWords M ov ws (chunks, lastBuf, buf) = some (chunks', lastBuf', buf') →
      (∀ w ∈ ws, w.length ≤ W) →
      ((formatWords buf).length : Int) ≤ max M 0 + W →
      (∀ c ∈ chunks, (c.length : Int) ≤ max ov 0 + max M 0 + W) →
      (∀ c ∈ chunks', (c.length : Int) ≤ max ov 0 + max M 0 + W) ∧
        ((formatWords buf').length : Int) ≤ max M 0 + W := by
  intro ws
  induction ws with
  | nil =>
    intro chunks lastBuf buf chunks' lastBuf' buf' hrun _ hbuf hchunks
    simp [runWords] at hrun
    obtain ⟨h1, _, h3⟩ := hrun
    subst h1; subst h3
    exact ⟨hchunks, hbuf⟩
  | cons w ws ih =>
    intro chunks lastBuf buf chunks' lastBuf' buf' hrun hws hbuf hchunks
    simp only [runWords] at hrun
    by_cases h : ((formatWords (buf ++ [w])).length : Int) > M
    · cases ht : trimCarry ov lastBuf with
      | none => rw [stepWord, ht] at hrun; simp [h] at hrun
      | some lb =>
        rw [stepWord] at hrun
        simp only [h, if_true, ht] at hrun
        refine ih _ _ _ _ _ _ hrun (fun x hx => hws x (List.mem_cons_of_mem _ hx)) ?_ ?_
        · have : (formatWords [w]).length = w.length := by simp [formatWords]
          rw [this]
          have hwW : w.length ≤ W := hws w (List.mem_cons_self _ _)
          have : (0 : Int) ≤ max M 0 := le_max_right _ _
          omega
        · intro c hc
          rcases List.mem_append.mp hc with hc | hc
          · exact hchunks c hc
          · have hceq : c = formatWords (lb ++ buf) := by simpa using hc
            subst hceq
            rw [formatWords_append, List.length_append]
            have hlb : ((formatWords lb).length : Int) ≤ ov := trimCarry_bound ht
            have hov : ov ≤ max ov 0 := le_max_left _ _
            push_cast
            omega
    · rw [stepWord] at hrun
      simp only [h, if_false] at hrun
      refine ih _ _ _ _ _ _ hrun (fun x hx => hws x (List.mem_cons_of_mem _ hx)) ?_ hchunks
      have hle : ((formatWords (buf ++ [w])).length : Int) ≤ M := by omega
      have hM : M ≤ max M 0 := le_max_left _ _
      have hW : (0 : Int) ≤ (W : Int) := Int.ofNat_nonneg _
      omega

theorem endParagraph_bound {ov M : Int} {W : Nat}
    {chunks lastBuf buf chunks' buf' : List (List Char)}
    (hend : endParagraph ov (chunks, lastBuf, buf) = some (chunks', buf'))
    (hbuf : ((formatWords buf).length : Int) ≤ max M 0 + W)
    (hchunks : ∀ c ∈ chunks, (c.length : Int) ≤ max ov 0 + max M 0 + W) :
    (∀ c ∈ chunks', (c.length : Int) ≤ max ov 0 + max M 0 + W) ∧ buf' = [] := by
  cases buf with
  | nil =>
    simp [endParagraph] at hend
    obtain ⟨h1, h2⟩ := hend
    subst h1
    exact ⟨hchunks, h2⟩
  | cons b bs =>
    cases ht : trimCarry ov lastBuf with
    | none => simp [endParagraph, ht] at hend
    | some lb =>
      simp [endParagraph, ht] at hend
      obtain ⟨h1, h2⟩ := hend
      subst h1
      refine ⟨?_, h2⟩
      intro c hc
      rcases List.mem_append.mp hc with hc | hc
      · exact hchunks c hc
      · have hceq : c = formatWords (lb ++ b :: bs) := by simpa using hc
        subst hceq
        rw [formatWords_append, List.length_append]
        have hlb : ((formatWords lb).length : Int) ≤ ov := trimCarry_bound ht
        have hov : ov ≤ max ov 0 := le_max_left _ _
        push_cast
        omega

theorem runParas_bound {M ov : Int} {W : Nat} :
    ∀ (ps chunks cs : List (List Char)),
      runParas M ov ps chunks [] = some cs →
      (∀ p ∈ ps, ∀ w ∈ wordsOfParagraph p, w.length ≤ W) →
      (∀ c ∈ chunks, (c.length : Int) ≤ max ov 0 + max M 0 + W) →
      ∀ c ∈ cs, (c.length : Int) ≤ max ov 0 + max M 0 + W := by
  intro ps
  induction ps with
  | nil =>
    intro chunks cs h hps hchunks
    simp [runParas] at h
    subst h
    exact hchunks
  | cons p ps ih =>
    intro chunks cs h hps hchunks
    simp only [runParas] at h
    cases hpp : processParagraph M ov chunks [] p with
    | none => rw [hpp] at h; simp at h
    | some st =>
      obtain ⟨chunks1, buf1⟩ := st
      rw [hpp] at h
      rw [processParagraph] at hpp
      cases hrw : runWords M ov (wordsOfParagraph p) (chunks, [], []) with
      | none => rw [hrw] at hpp; simp at hpp
      | some st2 =>
        obtain ⟨c2, lb2, b2⟩ := st2
        rw [hrw] at hpp
        have hb0 : ((formatWords ([] : List (List Char))).length : Int) ≤ max M 0 + W := by
          have h0 : (0 : Int) ≤ max M 0 := le_max_right _ _
          have h1 : (0 : Int) ≤ (W : Int) := Int.ofNat_nonneg _
          simp [formatWords]
          omega
        have hwb := runWords_bound (wordsOfParagraph p) chunks [] [] c2 lb2 b2 hrw
          (hps p (List.mem_cons_self _ _)) hb0 hchunks
        have heb := endParagraph_bound (M := M) (W := W) hpp hwb.2 hwb.1
        rw [heb.2] at h
        exact ih chunks1 cs h (fun q hq => hps q (List.mem_cons_of_mem _ hq)) heb.1

/-- C1 (amended): every emitted chunk's reconstructed length is bounded
by `max(overlap_size, 0) + max(max_chunk_size, 0)` plus the length of
one word token of the input, i.e. a chunk may exceed the configured
maximum by the overlap allowance plus one additional word token. -/
theorem chunk_size_bound (M ov : Int) (text : List Char) (cs : List (List Char))
    (h : chunkModel M ov text = some cs) :
    ∀ c ∈ cs, (c.length : Int) ≤ max ov 0 + max M 0 + (maxTokenLen text : Int) := by
  refine runParas_bound (tokenizeParagraphs text) [] cs h ?_ ?_
  · intro p hp w hw
    exact tokenLen_le_maxTokenLen hp hw
  · intro c hc
    cases hc

/-- Two-sentence sample text used by several concrete computations. -/
def twoSentText : List Char := "This is sentence one. This is sentence two.".toList

/-- Sample text for the C1 counterexample: every word token has length
at most 2, the configuration is `maxChunkSize = 5`, `chunkOverlap =
100`. -/
def shortWordsText : List Char := "ab cd ef gh ij kl".toList

/-- C1 counterexample: with `maxChunkSize = 5` and `chunkOverlap = 100`,
chunking `"ab cd ef gh ij kl"` emits the chunk `"ab cd ef "` of length
9, which exceeds `maxChunkSize` by 4, more than the length of any word
token of the input (all have length at most 2).  The claim as stated
(for every configuration, the excess over `max_chunk_size` is at most
one word token) is therefore false. -/
theorem chunk_size_claim_false :
    ¬ (∀ cs : List (List Char), chunkModel 5 100 shortWordsText = some cs →
        ∀ c ∈ cs, (c.length : Int) ≤ 5 + (maxTokenLen shortWordsText : Int)) := by
  intro hclaim
  have h1 := hclaim ((chunkModel 5 100 shortWordsText).getD []) (by decide)
  have h2 := h1 ("ab cd ef ".toList) (by decide)
  revert h2
  decide

/-- Witness for the amended C1 at a concrete configuration, input and
emitted chunk. -/
theorem chunk_size_bound_witness :
    ((" one.This is sentence".toList).length : Int) ≤
      max (5 : Int) 0 + max (20 : Int) 0 + (maxTokenLen twoSentText : Int) :=
  chunk_size_bound 20 5 twoSentText
    ["This is sentence ".toList, " one.This is sentence".toList, " two.".toList] (by decide)
    (" one.This is sentence".toList) (by decide)

theorem stepWordChunksMono {M ov : Int} {w : List Char}
    {st st' : List (List Char) × List (List Char) × List (List Char)}
    (h : stepWord M ov st w = some st') : st.1 <+: st'.1 := by
  obtain ⟨chunks, lastBuf, buf⟩ := st
  by_cases hc : ((formatWords (buf ++ [w])).length : Int) > M
  · cases ht : trimCarry ov lastBuf with
    | none => rw [stepWord, ht] at h; simp [hc] at h
    | some lb =>
      rw [stepWord] at h
      simp only [hc, if_true, ht] at h
      rw [← Option.some.inj h]
      exact ⟨[formatWords (lb ++ buf)], rfl⟩
  · rw [stepWord] at h
    simp only [hc, if_false] at h
    rw [← Option.some.inj h]

theorem runWordsChunksMono {M ov : Int} :
    ∀ (ws : List (List Char)) (st st' : List (List Char) × List (List Char) × List (List Char)),
      runWords M ov ws st = some st' → st.1 <+: st'.1 := by
  intro ws
  induction ws with
  | nil =>
    intro st st' h
    simp [runWords] at h
    rw [h]
  | cons w ws ih =>
    intro st st' h
    simp only [runWords] at h
    cases hs : stepWord M ov st w with
    | none => rw [hs] at h; simp at h
    | some st1 =>
      rw [hs] at h
      exact (stepWordChunksMono hs).trans (ih st1 st' h)

theorem endParagraphChunksMono {ov : Int}
    {st : List (List Char) × List (List Char) × List (List Char)}
    {out : List (List Char) × List (List Char)}
    (h : endParagraph ov st = some out) : st.1 <+: out.1 ∧ out.2 = [] := by
  obtain ⟨chunks, lastBuf, buf⟩ := st
  obtain ⟨o1, o2⟩ := out
  cases buf with
  | nil =>
    simp [endParagraph] at h
    obtain ⟨h1, h2⟩ := h
    subst h1
    exact ⟨List.prefix_refl _, h2⟩
  | cons b bs =>
    cases ht : trimCarry ov lastBuf with
    | none => simp [endParagraph, ht] at h
    | some lb =>
      simp [endParagraph, ht] at h
      obtain ⟨h1, h2⟩ := h
      subst h1
      exact ⟨⟨[formatWords (lb ++ b :: bs)], rfl⟩, h2⟩

theorem processParagraphMono {M ov : Int} {chunks buf : List (List Char)} {p : List Char}
    {out : List (List Char) × List (List Char)}
    (h : processParagraph M ov chunks buf p = some out) : chunks <+: out.1 ∧ out.2 = [] := by
  rw [processParagraph] at h
  cases hrw : runWords M ov (wordsOfParagraph p) (chunks, [], buf) with
  | none => rw [hrw] at h; simp at h
  | some st2 =>
    rw [hrw] at h
    have h1 := runWordsChunksMono (wordsOfParagraph p) _ _ hrw
    have h2 := endParagraphChunksMono h
    exact ⟨h1.trans h2.1, h2.2⟩

theorem runParasChunksMono {M ov : Int} :
    ∀ (ps chunks buf cs : List (List Char)),
      runParas M ov ps chunks buf = some cs → chunks <+: cs := by
  intro ps
  induction ps with
  | nil =>
    intro chunks buf cs h
    simp [runParas] at h
    rw [h]
  | cons p ps ih =>
    intro chunks buf cs h
    simp only [runParas] at h
    cases hpp : processParagraph M ov chunks buf p with
    | none => rw [hpp] at h; simp at h
    | some out =>
      obtain ⟨chunks1, buf1⟩ := out
      rw [hpp] at h
      exact (processParagraphMono hpp).1.trans (ih chunks1 buf1 cs h)

theorem trimCarry_nil {ov : Int} (hov : 0 ≤ ov) : trimCarry ov [] = some [] := by
  simp [trimCarry, hov]

theorem runParas_empty_chunk {M ov : Int} (hov : 0 ≤ ov) :
    ∀ (ps chunks cs : List (List Char)),
      runParas M ov ps chunks [] = some cs →
      (∃ p ∈ ps, ∃ w ws', wordsOfParagraph p = w :: ws' ∧ M < (w.length : Int)) →
      [] ∈ cs := by
  intro ps
  induction ps with
  | nil =>
    intro chunks cs h hex
    obtain ⟨p, hp, _⟩ := hex
    cases hp
  | cons p ps ih =>
    intro chunks cs h hex
    simp only [runParas] at h
    cases hpp : processParagraph M ov chunks [] p with
    | none => rw [hpp] at h; simp at h
    | some out =>
      obtain ⟨chunks1, buf1⟩ := out
      rw [hpp] at h
      have hb1 : buf1 = [] := (processParagraphMono hpp).2
      subst hb1
      obtain ⟨q, hq, w, ws', hqw, hwM⟩ := hex
      rcases List.mem_cons.mp hq with rfl | hq'
      · have hstep : stepWord M ov (chunks, [], []) w = some (chunks ++ [[]], [], [w]) := by
          rw [stepWord]
          simp [hwM, trimCarry_nil hov, formatWords]
        have hrun1 : runWords M ov (w :: ws') (chunks, [], []) =
            runWords M ov ws' (chunks ++ [[]], [], [w]) := by
          simp only [runWords, hstep]
        rw [processParagraph, hqw, hrun1] at hpp
        have hmem1 : [] ∈ chunks ++ [[]] := by simp
        cases hrw : runWords M ov ws' (chunks ++ [[]], [], [w]) with
        | none => rw [hrw] at hpp; simp at hpp
        | some st2 =>
          rw [hrw] at hpp
          have hpre1 := runWordsChunksMono ws' _ _ hrw
          have hpre2 := (endParagraphChunksMono hpp).1
          have hmem2 : [] ∈ chunks1 := hpre2.subset (hpre1.subset hmem1)
          exact (runParasChunksMono ps chunks1 [] cs h).subset hmem2
      · exact ih chunks1 cs h ⟨q, hq', w, ws', hqw, hwM⟩

/-- C8 (amended): for every configuration with positive `maxChunkSize`
and non-negative `chunkOverlap`, and every input in which some
paragraph's first word token is longer than `maxChunkSize`,
`SentenceChunker.chunk` emits the empty string as a chunk: when the size
check fires for that first token both the carry and the pending buffer
are empty, so `formatWords([] ++ [])` is pushed.  (For a negative
overlap no chunk list is produced at all, see the counterexample.) -/
theorem chunk_emits_empty (M ov : Int) (text : List Char) (_hM : 0 < M) (hov : 0 ≤ ov)
    (hlong : ∃ p ∈ tokenizeParagraphs text, ∃ w ws',
      wordsOfParagraph p = w :: ws' ∧ M < (w.length : Int)) :
    ∃ cs, chunkModel M ov text = some cs ∧ [] ∈ cs := by
  have hs := runParas_isSome (M := M) hov (tokenizeParagraphs text) [] []
  cases h : runParas M ov (tokenizeParagraphs text) [] [] with
  | none => rw [h] at hs; simp at hs
  | some cs => exact ⟨cs, h, runParas_empty_chunk hov _ _ _ h hlong⟩

/-- C8 counterexample: the claim quantifies over every configuration
with positive `maxChunkSize`, but with `maxChunkSize = 5` and
`chunkOverlap = -1` the input `"abcdefgh"` (whose single paragraph's
first word token has length 8 > 5) makes the carry-trim loop diverge at
the very first flush, so no chunk — in particular no empty chunk — is
ever emitted. -/
theorem chunk_emits_empty_claim_false :
    ¬ (∀ (M ov : Int) (text : List Char), 0 < M →
        (∃ p ∈ tokenizeParagraphs text, ∃ w ws',
          wordsOfParagraph p = w :: ws' ∧ M < (w.length : Int)) →
        ∃ cs, chunkModel M ov text = some cs ∧ [] ∈ cs) := by
  intro hclaim
  obtain ⟨cs, hcs, _⟩ := hclaim 5 (-1) ("abcdefgh".toList) (by decide)
    ⟨"abcdefgh".toList, by decide, "abcdefgh".toList, [], by decide, by decide⟩
  rw [(by decide : chunkModel 5 (-1) ("abcdefgh".toList) = none)] at hcs
  cases hcs

/-- Witness for the amended C8 at a concrete configuration: chunking
`"abcdefgh ab"` with `maxChunkSize = 5`, `chunkOverlap = 2` emits the
empty chunk. -/
theorem chunk_emits_empty_witness :
    ∃ cs, chunkModel 5 2 ("abcdefgh ab".toList) = some cs ∧ [] ∈ cs :=
  chunk_emits_empty 5 2 ("abcdefgh ab".toList) (by decide) (by decide)
    ⟨"abcdefgh ab".toList, by decide, "abcdefgh".toList, [[' '], ['a', 'b']],
      by decide, by decide⟩

/-- Check of the overlap invariant between two consecutive chunks: some
suffix of the first chunk of length at most `k` is a prefix of the
second chunk. -/
def overlapOk (k : Nat) (a b : List Char) : Bool :=
  a.tails.any (fun s => decide (s.length ≤ k) && s.isPrefixOf b)

/-- Check of the overlap invariant along a whole chunk list. -/
def chainOverlap (k : Nat) : List (List Char) → Bool
  | a :: b :: rest => overlapOk k a b && chainOverlap k (b :: rest)
  | _ => true

/-- C5: with `maxChunkSize = 20`, `chunkOverlap = 5` and the default
tokenizers, chunking `"This is sentence one. This is sentence two."`
terminates and yields three chunks (at least two); the input is a single
paragraph, and every consecutive pair of chunks satisfies the overlap
invariant: the later chunk begins with a suffix of the earlier one whose
length is at most 5 characters. -/
theorem chunk_example_overlap :
    chunkModel 20 5 twoSentText =
      some ["This is sentence ".toList, " one.This is sentence".toList, " two.".toList] ∧
    2 ≤ ((chunkModel 20 5 twoSentText).getD []).length ∧
    chainOverlap 5 ((chunkModel 20 5 twoSentText).getD []) = true := by
  refine ⟨by decide, by decide, by decide⟩

/-- Computable substring check: `a` occurs contiguously inside `b`. -/
def isSubstring (a b : List Char) : Bool :=
  b.tails.any (fun t => a.isPrefixOf t)

/-- C9: a chunk emitted for the two-sentence input is not a substring of
the input: `BasicSentenceTokenizer` drops the whitespace that follows
the terminal punctuation, so the second chunk contains `"one.This"`,
gluing the two sentences together without the separating space. -/
theorem chunk_not_substring :
    (chunkModel 20 5 twoSentText).isSome = true ∧
    ((chunkModel 20 5 twoSentText).getD []).any
      (fun c => !(isSubstring c twoSentText)) = true ∧
    ((chunkModel 20 5 twoSentText).getD []).any
      (fun c => isSubstring ("one.This".toList) c) = true := by
  refine ⟨by decide, by decide, by decide⟩

/-- C2: when the embedding collaborator throws for exactly the 2nd of 3
non-empty units, `buildFromTexts` still constructs and buffers the
Document records of units 1 and 3 (indices 0 and 2) and hands exactly
those two to the store in the single final batch; no inserted record
carries the failed unit's index, and the call returns normally — the
failure is consumed by the caught branch of the loop, the model being a
total function. -/
theorem buildFromTexts_skips_failed {E : Type} (env : BuildEnv E)
    (t1 t2 t3 : List Char) (e1 e3 : E)
    (hv1 : isValidText t1 = true) (hv2 : isValidText t2 = true) (hv3 : isValidText t3 = true)
    (h1 : env.embed 0 t1 = Except.ok e1) (h2 : env.embed 1 t2 = Except.error ())
    (h3 : env.embed 2 t3 = Except.ok e3) :
    buildFromTexts env [t1, t2, t3] = [[mkRagDoc env 0 t1 e1, mkRagDoc env 2 t3 e3]] ∧
    ∀ batch ∈ buildFromTexts env [t1, t2, t3], ∀ d ∈ batch, d.metadata.index ≠ 1 := by
  have hfilter : [t1, t2, t3].filter isValidText = [t1, t2, t3] := by
    simp [hv1, hv2, hv3]
  have hres : buildFromTexts env [t1, t2, t3] =
      [[mkRagDoc env 0 t1 e1, mkRagDoc env 2 t3 e3]] := by
    rw [buildFromTexts, hfilter]
    simp [buildLoop, h1, h2, h3]
  refine ⟨hres, ?_⟩
  rw [hres]
  intro batch hb d hd
  have hbatch : batch = [mkRagDoc env 0 t1 e1, mkRagDoc env 2 t3 e3] := by simpa using hb
  subst hbatch
  rcases List.mem_cons.mp hd with rfl | hd'
  · simp [mkRagDoc]
  · have : d = mkRagDoc env 2 t3 e3 := by simpa using hd'
    subst this
    simp [mkRagDoc]

/-- Environment whose embedding collaborator fails exactly on the unit
at index 1 and succeeds elsewhere (embedding payload: the index). -/
def failSecondEnv : BuildEnv Nat :=
  { embed := fun i _ => if i == 1 then Except.error () else Except.ok i
    uuidGen := id
    time := id
    uid := none
    embeddingsModel := []
    embeddingsDimension := 0 }

/-- Witness for C2 at a concrete environment and three concrete units. -/
theorem buildFromTexts_skips_failed_witness :
    buildFromTexts failSecondEnv [['a'], ['b'], ['c']] =
      [[mkRagDoc failSecondEnv 0 ['a'] 0, mkRagDoc failSecondEnv 2 ['c'] 2]] ∧
    ∀ batch ∈ buildFromTexts failSecondEnv [['a'], ['b'], ['c']],
      ∀ d ∈ batch, d.metadata.index ≠ 1 :=
  buildFromTexts_skips_failed failSecondEnv ['a'] ['b'] ['c'] 0 2
    (by decide) (by decide) (by decide) rfl rfl rfl

theorem buildLoop_sizes {E : Type} (env : BuildEnv E)
    (hok : ∀ i t, ∃ e, env.embed i t = Except.ok e) :
    ∀ (ts : List (List Char)) (idx : Nat) (buf : List (RagDoc E)) (ins : List (List (RagDoc E))),
      buf.length < 100 →
      (buildLoop env idx ts buf ins).map List.length =
        ins.map List.length ++ flushSizes buf.length ts.length := by
  intro ts
  induction ts with
  | nil =>
    intro idx buf ins hb
    cases buf with
    | nil => simp [buildLoop, flushSizes]
    | cons d ds => simp [buildLoop, flushSizes]
  | cons t ts ih =>
    intro idx buf ins hb
    obtain ⟨e, he⟩ := hok idx t
    rw [buildLoop, he]
    by_cases hflush : 100 ≤ (buf ++ [mkRagDoc env idx t e]).length
    · have hlen99 : buf.length = 99 := by
        simp at hflush
        omega
      simp only [hflush, if_true]
      rw [ih (idx + 1) [] (ins ++ [buf ++ [mkRagDoc env idx t e]]) (by simp)]
      have hfs : flushSizes buf.length (t :: ts).length = 100 :: flushSizes 0 ts.length := by
        rw [hlen99]
        simp [flushSizes]
      rw [hfs]
      simp [hlen99]
    · simp only [hflush, if_false]
      have hlt : (buf ++ [mkRagDoc env idx t e]).length < 100 := by omega
      rw [ih (idx + 1) (buf ++ [mkRagDoc env idx t e]) ins hlt]
      have hfs : flushSizes buf.length (t :: ts).length =
          flushSizes (buf.length + 1) ts.length := by
        have hnot : ¬ 100 ≤ buf.length + 1 := by
          simp at hflush
          omega
        simp [flushSizes, hnot]
      rw [hfs]
      simp

/-- C4: when `buildFromTexts` receives 250 units, all with non-empty
trimmed content, and every embedding request succeeds, the store's
`insertMany` is invoked exactly 3 times, with batches of 100, 100 and 50
records, in that order. -/
theorem buildFromTexts_batches {E : Type} (env : BuildEnv E) (texts : List (List Char))
    (hok : ∀ i t, ∃ e, env.embed i t = Except.ok e)
    (hv : ∀ t ∈ texts, isValidText t = true)
    (hlen : texts.length = 250) :
    (buildFromTexts env texts).map List.length = [100, 100, 50] := by
  have hfilter : texts.filter isValidText = texts := List.filter_eq_self.mpr hv
  rw [buildFromTexts, hfilter, buildLoop_sizes env hok texts 0 [] [] (by simp), hlen]
  simp only [List.length_nil, List.map_nil, List.nil_append]
  decide

/-- Environment whose embedding collaborator always succeeds (embedding
payload: the index). -/
def allOkEnv : BuildEnv Nat :=
  { embed := fun i _ => Except.ok i
    uuidGen := id
    time := id
    uid := none
    embeddingsModel := []
    embeddingsDimension := 0 }

/-- Witness for C4: 250 copies of the unit `"a"` produce exactly the
batch sizes 100, 100, 50. -/
theorem buildFromTexts_batches_witness :
    (buildFromTexts allOkEnv (List.replicate 250 ['a'])).map List.length = [100, 100, 50] :=
  buildFromTexts_batches allOkEnv (List.replicate 250 ['a'])
    (fun i t => ⟨i, rfl⟩)
    (by
      intro t ht
      rw [List.eq_of_mem_replicate ht]
      decide)
    (by rw [List.length_replicate])

theorem filter_not_twice {α : Type} (m : α → Bool) (l : List α) :
    (l.filter (fun d => !(m d))).filter (fun d => !(m d)) = l.filter (fun d => !(m d)) ∧
    (l.filter (fun d => !(m d))).filter m = [] := by
  induction l with
  | nil => exact ⟨rfl, rfl⟩
  | cons a l ih =>
    by_cases ha : m a
    · simp [List.filter_cons, ha, ih]
    · simp [List.filter_cons, ha, ih]

/-- C6: `cleanupByUid u` deletes exactly the Document records whose
owner-scope field equals `u` — those with a different or absent owner
scope all remain, in order — and returns the number removed; calling it
again on the resulting store removes nothing and returns 0. -/
theorem cleanupByUid_spec {E : Type} (u : List Char) (store : List (RagDoc E)) :
    (cleanupByUid u store).1 = store.filter (fun d => !(matchesUid u d)) ∧
    (cleanupByUid u store).2 = (store.filter (fun d => matchesUid u d)).length ∧
    (∀ d ∈ store, matchesUid u d = false → d ∈ (cleanupByUid u store).1) ∧
    cleanupByUid u (cleanupByUid u store).1 = ((cleanupByUid u store).1, 0) := by
  refine ⟨rfl, rfl, ?_, ?_⟩
  · intro d hd hm
    rw [cleanupByUid]
    exact List.mem_filter.mpr ⟨hd, by simp [hm]⟩
  · have h := filter_not_twice (fun d => matchesUid u d) store
    rw [cleanupByUid, cleanupByUid]
    rw [Prod.mk.injEq]
    constructor
    · exact h.1
    · rw [h.2]
      rfl

theorem buildLoop_content {E : Type} (env : BuildEnv E) (T : List (List Char)) :
    ∀ (ts : List (List Char)) (idx : Nat) (buf : List (RagDoc E)) (ins : List (List (RagDoc E))),
      (∀ t ∈ ts, t ∈ T) →
      (∀ d ∈ buf, d.content ∈ T) →
      (∀ b ∈ ins, ∀ d ∈ b, d.content ∈ T) →
      ∀ b ∈ buildLoop env idx ts buf ins, ∀ d ∈ b, d.content ∈ T := by
  intro ts
  induction ts with
  | nil =>
    intro idx buf ins hts hbuf hins b hb d hd
    by_cases hbe : buf.isEmpty
    · rw [buildLoop] at hb
      simp only [hbe, if_true] at hb
      exact hins b hb d hd
    · rw [buildLoop] at hb
      simp only [hbe, if_false] at hb
      rcases List.mem_append.mp hb with hb' | hb'
      · exact hins b hb' d hd
      · have : b = buf := by simpa using hb'
        subst this
        exact hbuf d hd
  | cons t ts ih =>
    intro idx buf ins hts hbuf hins b hb d hd
    rw [buildLoop] at hb
    cases he : env.embed idx t with
    | error err =>
      rw [he] at hb
      exact ih (idx + 1) buf ins (fun x hx => hts x (List.mem_cons_of_mem _ hx)) hbuf hins b hb d hd
    | ok e =>
      rw [he] at hb
      have hbuf' : ∀ x ∈ buf ++ [mkRagDoc env idx t e], x.content ∈ T := by
        intro x hx
        rcases List.mem_append.mp hx with hx' | hx'
        · exact hbuf x hx'
        · have : x = mkRagDoc env idx t e := by simpa using hx'
          subst this
          exact hts t (List.mem_cons_self _ _)
      by_cases hflush : 100 ≤ (buf ++ [mkRagDoc env idx t e]).length
      · simp only [hflush, if_true] at hb
        refine ih (idx + 1) [] (ins ++ [buf ++ [mkRagDoc env idx t e]])
          (fun x hx => hts x (List.mem_cons_of_mem _ hx)) (by intro x hx; cases hx) ?_ b hb d hd
        intro b' hb' d' hd'
        rcases List.mem_append.mp hb' with hb'' | hb''
        · exact hins b' hb'' d' hd'
        · have : b' = buf ++ [mkRagDoc env idx t e] := by simpa using hb''
          subst this
          exact hbuf' d' hd'
      · simp only [hflush, if_false] at hb
        exact ih (idx + 1) (buf ++ [mkRagDoc env idx t e]) ins
          (fun x hx => hts x (List.mem_cons_of_mem _ hx)) hbuf' hins b hb d hd

theorem buildFromTexts_content {E : Type} (env : BuildEnv E) (texts : List (List Char)) :
    ∀ b ∈ buildFromTexts env texts, ∀ d ∈ b, d.content ∈ texts := by
  refine buildLoop_content env texts (texts.filter isValidText) 0 [] [] ?_ ?_ ?_
  · intro t ht
    exact List.mem_of_mem_filter ht
  · intro d hd
    cases hd
  · intro b hb
    cases hb

/-- C7: `buildFromFile` raises the input error when the path does not
exist — before any store interaction, so no partial state is created —
and otherwise reads the file fully, splits it with `tokenizeParagraphs`,
and hands those paragraphs to `buildFromTexts` unchanged: every record
reaching the store has a whole paragraph as content, so the
sliding-window chunker is never involved. -/
theorem buildFromFile_spec {E : Type} (env : BuildEnv E)
    (fileSys : List Char → Option (List Char)) (path : List Char) :
    (fileSys path = none → buildFromFile env fileSys path = Except.error ()) ∧
    (∀ raw, fileSys path = some raw →
      buildFromFile env fileSys path =
        Except.ok (buildFromTexts env (tokenizeParagraphs raw)) ∧
      ∀ b ∈ buildFromTexts env (tokenizeParagraphs raw), ∀ d ∈ b,
        d.content ∈ tokenizeParagraphs raw) := by
  constructor
  · intro h
    simp [buildFromFile, h]
  · intro raw h
    refine ⟨by simp [buildFromFile, h], ?_⟩
    exact buildFromTexts_content env _

/-- Witness for C7: a file system without the path raises the input
error, and one with a two-paragraph file hands the paragraphs to
`buildFromTexts`. -/
theorem buildFromFile_spec_witness :
    buildFromFile allOkEnv (fun _ => none) ['p'] = Except.error () ∧
    buildFromFile allOkEnv (fun _ => some ("a\n\nb".toList)) ['p'] =
      Except.ok (buildFromTexts allOkEnv (tokenizeParagraphs ("a\n\nb".toList))) :=
  ⟨(buildFromFile_spec allOkEnv (fun _ => none) ['p']).1 rfl,
   ((buildFromFile_spec allOkEnv (fun _ => some ("a\n\nb".toList)) ['p']).2
     ("a\n\nb".toList) rfl).1⟩
